import Mathlib

/-!
Shallow embedding of the listing extraction and ranking pipeline of
`src/PropertyFinder.py`, together with theorems settling the frozen claims
about it.

Modelling conventions:

* Python numbers (ints and floats) that flow through the pipeline are decimal
  literals and results of decimal-step arithmetic (`+ 0.5`, `round(_, 1)`,
  `min(_, 10.0)`), so they are modelled by the exact decimal type `PyF`
  below.  Binary floating point representation error at extreme precision is
  outside the model.
* Python strings are `String`; all operations used by the source
  (`.lower()`, `.strip()`, `in`, `.startswith`) are re-implemented over
  `List Char` (ASCII case folding), so that every definition evaluates
  inside the Lean kernel.
* External collaborators are oracles: the Steel scrape used by
  `_fetch_description` is a parameter `fetchd : String → String`
  (its failures already surface as `""` in the source), the OpenAI call of
  `_extract_with_ai` is a parameter `Except Unit String`, and `json.loads`
  is a parameter `String → Option Json` (`none` = raise).  Raindrop
  observability calls (`_track`, `_signal`, `begin`/`finish`) have no
  data-flow effect and are not modelled.
* Python exceptions are `Except Unit`; a function that cannot raise returns
  its value directly.
-/

/-- Exact decimal number with value `mant / 10 ^ exp`.  Models the Python
ints and floats of the pipeline (prices, ratings, scores). -/
structure PyF where
  mant : Int
  exp : Nat
deriving DecidableEq, Repr

namespace PyF

/-- Python `int` literal. -/
def ofInt (n : Int) : PyF := ⟨n, 0⟩

/-- Python `<=` on numbers (cross multiplication; denominators `10 ^ _` are
positive). -/
def le (a b : PyF) : Bool := a.mant * (10:Int) ^ b.exp ≤ b.mant * (10:Int) ^ a.exp

/-- Python `<` on numbers. -/
def lt (a b : PyF) : Bool := a.mant * (10:Int) ^ b.exp < b.mant * (10:Int) ^ a.exp

/-- Value equality (`==` on Python numbers), as opposed to the structural
equality of representations. -/
def eqv (a b : PyF) : Bool := a.mant * (10:Int) ^ b.exp = b.mant * (10:Int) ^ a.exp

/-- Python `+` on numbers (align exponents). -/
def add (a b : PyF) : PyF :=
  ⟨a.mant * (10:Int) ^ (max a.exp b.exp - a.exp) +
     b.mant * (10:Int) ^ (max a.exp b.exp - b.exp),
   max a.exp b.exp⟩

/-- Python `min` on two numbers: `min(a, b)` is `a` if `a <= b` else `b`. -/
def pymin (a b : PyF) : PyF := if le a b then a else b

/-- Python `round(x, 1)` (banker's rounding to one decimal digit; the result
is represented over denominator `10`). -/
def round1 (x : PyF) : PyF :=
  let a : Int := x.mant * 10
  let b : Int := (10:Int) ^ x.exp
  let q : Int := a / b
  let r : Int := a % b
  ⟨if 2 * r < b then q else if b < 2 * r then q + 1 else if q % 2 = 0 then q else q + 1, 1⟩

end PyF

/-- Whitespace as recognised by Python's `str.strip` / `\s` (ASCII part). -/
def isSpacePy (c : Char) : Bool :=
  c = ' ' || c = '\t' || c = '\n' || c = '\x0d' || c = '\x0b' || c = '\x0c'

/-- Word characters for the regex `\b` boundary (`\w`, ASCII part). -/
def isWordChar (c : Char) : Bool := c.isAlphanum || c = '_'

/-- ASCII lower-casing of one character (Python `str.lower`). -/
def lowerChar (c : Char) : Char :=
  if 'A' ≤ c && c ≤ 'Z' then Char.ofNat (c.toNat + 32) else c

/-- Python `str.lower` (ASCII). -/
def pyLower (s : String) : String := String.mk (s.data.map lowerChar)

/-- Does `hay` begin with `needle`? -/
def startsWithChars : List Char → List Char → Bool
  | [], _ => true
  | _ :: _, [] => false
  | a :: as, b :: bs => a == b && startsWithChars as bs

/-- Does `hay` contain `needle` as a contiguous run?  (Python `needle in hay`.) -/
def containsChars (needle : List Char) : List Char → Bool
  | [] => startsWithChars needle []
  | hay@(_ :: rest) => startsWithChars needle hay || containsChars needle rest

/-- Python `needle in hay` on strings. -/
def pyIn (needle hay : String) : Bool := containsChars needle.data hay.data

/-- Python `s.startswith(p)`. -/
def pyStartsWith (s p : String) : Bool := startsWithChars p.data s.data

/-- Python `str.strip()` (ASCII whitespace). -/
def pyStrip (s : String) : String :=
  String.mk (((s.data.dropWhile isSpacePy).reverse.dropWhile isSpacePy).reverse)

/-- Numeric value of a digit character. -/
def digitVal (c : Char) : Nat := c.toNat - 48

/-- Python `int` of a run of digit characters. -/
def natOfDigits : List Char → Nat := List.foldl (fun a c => a * 10 + digitVal c) 0

/-- Python `float` of `"<ip>.<fp>"` (or `"<ip>"`/`"<ip>."` when `fp = []`),
as an exact decimal. -/
def decOfParts (ip fp : List Char) : PyF := ⟨(natOfDigits (ip ++ fp) : Int), fp.length⟩

/-- First match of the regex `\$?(\d+)`: the leftmost maximal digit run (the
optional `$` does not change which digits are found).  Returns the captured
digits. -/
def firstIntRun : List Char → Option (List Char)
  | [] => none
  | c :: rest =>
    if c.isDigit then some (c :: rest.takeWhile Char.isDigit) else firstIntRun rest

/-- First match of the regex `(\d+\.?\d*)`: leftmost digit run, optionally
followed by a dot and further digits.  Returns (integer part, fractional
part). -/
def firstDecimalRun : List Char → Option (List Char × List Char)
  | [] => none
  | c :: rest =>
    if c.isDigit then
      let ip := c :: rest.takeWhile Char.isDigit
      match rest.dropWhile Char.isDigit with
      | '.' :: r2 => some (ip, r2.takeWhile Char.isDigit)
      | _ => some (ip, [])
    else firstDecimalRun rest

/-- One listing dictionary as it flows through the pipeline.  Each Python
dict key that any strategy may set is a field; `none` models an absent key
(or the JSON value `null`, which is observationally equivalent downstream:
both are falsy under `dict.get`). -/
structure Listing where
  name : String := ""
  location : String := "Unknown"
  price_per_night : Option PyF := none
  price : Option PyF := none
  rating : Option PyF := none
  url : Option String := none
  currency : Option String := none
  description : Option String := none
  match_score : Option PyF := none
deriving DecidableEq, Repr

/-- Python truthiness of an optional number (`None` and `0` are falsy). -/
def pyTruthy : Option PyF → Bool
  | none => false
  | some x => !(x.mant == 0)

/-- The coalescing `listing.get("price_per_night") or listing.get("price")`
of `_is_valid` (source lines 496): Python `or` skips a falsy left operand,
so a zero `price_per_night` falls through to the `price` key. -/
def effPrice (l : Listing) : Option PyF :=
  if pyTruthy l.price_per_night then l.price_per_night else l.price

/-- Model of `PropertyFinder._is_valid` (source lines 492–502). -/
def is_valid (l : Listing) : Bool :=
  if l.name = "" then false
  else if (match effPrice l with
           | some p => PyF.le p (PyF.ofInt 0)
           | none => false) then false
  else match l.rating with
       | none => true
       | some r => PyF.le (PyF.ofInt 0) r && PyF.le r (PyF.ofInt 5)

/-- Model of `PropertyFinder._calculate_score` (source lines 504–532).
`fetchd` is the `_fetch_description` collaborator (source lines 163–195,
a Steel scrape whose failures already surface as `""`).  Returns the score,
the listing after the possible description-cache mutation, and the number of
description fetches performed by this call. -/
def calculate_score (fetchd : String → String) (keywords : List String)
    (l : Listing) : PyF × Listing × Nat :=
  let name := l.name
  let fr : String × Listing × Nat :=
    if pyStartsWith name "airbnb.com" || pyStartsWith name "www.airbnb.com" then
      let d0 := l.description.getD ""
      if d0 = "" then
        let d := fetchd name
        (d, { l with description := some d }, 1)
      else (d0, l, 0)
    else ("", l, 0)
  let text := pyLower (fr.1 ++ " " ++ name ++ " " ++ l.location)
  let afterKw := keywords.foldl
    (fun sc kw => if pyIn (pyLower kw) text then PyF.add sc ⟨5, 1⟩ else sc) ⟨50, 1⟩
  let priceV : PyF :=
    if pyTruthy l.price_per_night then l.price_per_night.getD (PyF.ofInt 150)
    else PyF.ofInt 150
  let scored :=
    if PyF.lt priceV (PyF.ofInt 100) then PyF.add afterKw ⟨20, 1⟩
    else if PyF.lt priceV (PyF.ofInt 150) then PyF.add afterKw ⟨10, 1⟩
    else afterKw
  (PyF.round1 (PyF.pymin scored ⟨100, 1⟩), fr.2.1, fr.2.2)

/-- Score a listing and store the score under `match_score`
(`listing["match_score"] = self._calculate_score(listing)`, source line 259). -/
def scoreTag (fetchd : String → String) (keywords : List String) (l : Listing) : Listing :=
  let r := calculate_score fetchd keywords l
  { r.2.1 with match_score := some r.1 }

/-- The validate / score / deduplicate loop of `parse_listings`
(source lines 254–263), with the running `seen_names` set. -/
def validateAndDedup (fetchd : String → String) (keywords : List String) :
    List Listing → List String → List Listing
  | [], _ => []
  | l :: rest, seen =>
    if is_valid l && !(seen.contains l.name) then
      scoreTag fetchd keywords l :: validateAndDedup fetchd keywords rest (l.name :: seen)
    else
      validateAndDedup fetchd keywords rest seen

/-- Keep the first occurrence of each name (specification-side restatement of
the dedup loop, used to characterise `validateAndDedup`). -/
def dedupFirstByName : List Listing → List String → List Listing
  | [], _ => []
  | l :: rest, seen =>
    if seen.contains l.name then dedupFirstByName rest seen
    else l :: dedupFirstByName rest (l.name :: seen)

/-- Sort key of the final ranking: `x.get("match_score", 0)` (source line 730). -/
def sortKey (l : Listing) : PyF := l.match_score.getD (PyF.ofInt 0)

/-- Insert into a descending-sorted list, before the first element of
smaller-or-equal key (ties keep the earlier-emitted element first). -/
def insertDesc (x : Listing) : List Listing → List Listing
  | [] => [x]
  | y :: ys => if PyF.le (sortKey y) (sortKey x) then x :: y :: ys else y :: insertDesc x ys

/-- Model of `sorted(listings, key=lambda x: x.get("match_score", 0), reverse=True)`
(source line 730): Python's sort is stable, and `reverse=True` keeps ties in
emission order, i.e. a stable descending sort. -/
def rankResults (ls : List Listing) : List Listing := ls.foldr insertDesc []

/-- Parsed JSON values (`json.loads` output).  A number carries its integer
part and its fractional digit string (`frac = ""` for a Python `int`), which
determines both its `str()` form and its truthiness; exotic float
representations (exponents) are outside the model. -/
inductive Json where
  | null
  | bool (b : Bool)
  | num (i : Int) (frac : String)
  | str (s : String)
  | arr (elems : List Json)
  | obj (fields : List (String × Json))

/-- Python `dict.get` on a parsed-JSON object (`json.loads` keeps the last
of duplicate keys). -/
def getJ (fields : List (String × Json)) (k : String) : Option Json :=
  List.lookup k fields.reverse

/-- Python truthiness of a JSON-derived value. -/
def jTruthy : Json → Bool
  | .null => false
  | .bool b => b
  | .num i frac => !(i == 0 && frac.data.all (· == '0'))
  | .str s => !(s == "")
  | .arr l => !l.isEmpty
  | .obj fs => !fs.isEmpty

/-- Python `a or b` on JSON-derived values. -/
def jOr (a b : Json) : Json := if jTruthy a then a else b

/-- Python `dict.get(k)` with Python `None` for a missing key. -/
def getJD (fields : List (String × Json)) (k : String) : Json :=
  (getJ fields k).getD .null

mutual
/-- Python `repr` of a JSON-derived value (string escaping inside nested
containers is not modelled; it cannot add or remove digit runs). -/
def pyReprJ : Json → String
  | .null => "None"
  | .bool true => "True"
  | .bool false => "False"
  | .num i frac => if frac = "" then toString i else toString i ++ "." ++ frac
  | .str s => "'" ++ s ++ "'"
  | .arr l => "[" ++ pyReprList l ++ "]"
  | .obj fs => "\x7b" ++ pyReprFields fs ++ "\x7d"

def pyReprList : List Json → String
  | [] => ""
  | [x] => pyReprJ x
  | x :: xs => pyReprJ x ++ ", " ++ pyReprList xs

def pyReprFields : List (String × Json) → String
  | [] => ""
  | [(k, v)] => "'" ++ k ++ "': " ++ pyReprJ v
  | (k, v) :: xs => "'" ++ k ++ "': " ++ pyReprJ v ++ ", " ++ pyReprFields xs
end

/-- Python `str` of a JSON-derived value. -/
def pyStrJ : Json → String
  | .str s => s
  | j => pyReprJ j

/-- The name/title coalescing at the top of `_extract_from_json`
(source line 407): `data.get("name") or data.get("title") or ""`. -/
def nameJ (fields : List (String × Json)) : Json :=
  jOr (jOr (getJD fields "name") (getJD fields "title")) (.str "")

/-- The stringified price source (source lines 408–411). -/
def priceRawJ (fields : List (String × Json)) : String :=
  pyStrJ (jOr (jOr (jOr (getJD fields "price") (getJD fields "priceString"))
                   (getJD fields "priceValue")) (.str ""))

/-- The stringified rating source (source lines 412–415). -/
def ratingRawJ (fields : List (String × Json)) : String :=
  pyStrJ (jOr (jOr (jOr (getJD fields "rating") (getJD fields "starRating"))
                   (getJD fields "avgRating")) (.str ""))

/-- The location value (source lines 416–421), including the nested-object
case. -/
def locationJ (fields : List (String × Json)) : Json :=
  let loc0 := jOr (jOr (jOr (jOr (getJD fields "location") (getJD fields "city"))
                            (getJD fields "neighborhood"))
                       (getJD fields "subtitle")) (.str "")
  match loc0 with
  | .obj f2 => jOr (jOr (getJD f2 "name") (getJD f2 "city")) (.str "")
  | x => x

/-- The candidate emitted for one object node of `_extract_from_json`
(source lines 406–433): `.error ()` models the `AttributeError` raised by
`.strip()` when the coalesced name/title value is truthy but not a string;
otherwise `ok [c]` when the node qualifies (non-empty stripped name and at
least one of price/rating parseable), `ok []` when it does not. -/
def nodeLocation (fields : List (String × Json)) : String :=
  if jTruthy (locationJ fields) then pyStrJ (locationJ fields) else "Unknown"

def nodeHead (fields : List (String × Json)) : Except Unit (List Listing) :=
  match nameJ fields with
  | .str s =>
    let name := pyStrip s
    let pm := firstIntRun (priceRawJ fields).data
    let rm := firstDecimalRun (ratingRawJ fields).data
    if name ≠ "" && (pm.isSome || rm.isSome) then
      .ok [{ name := name,
             location := nodeLocation fields,
             price_per_night := pm.map (fun ds => PyF.ofInt (natOfDigits ds)),
             rating := rm.map (fun pr => decOfParts pr.1 pr.2) }]
    else .ok []
  | _ => .error ()

mutual
/-- Model of `PropertyFinder._extract_from_json` (source lines 402–443): recursive
hunt for listing objects in parsed JSON.  An exception anywhere aborts the
whole call (the caller catches per JSON fragment). -/
def extract_from_json : Json → Except Unit (List Listing)
  | .obj fields =>
    match nodeHead fields with
    | .error e => .error e
    | .ok head =>
      match extractFields fields with
      | .error e => .error e
      | .ok tail => .ok (head ++ tail)
  | .arr elems => extractElems elems
  | _ => .ok []

/-- Recursion into every child value of an object (source lines 436–437). -/
def extractFields : List (String × Json) → Except Unit (List Listing)
  | [] => .ok []
  | (_, v) :: rest =>
    match extract_from_json v with
    | .error e => .error e
    | .ok a =>
      match extractFields rest with
      | .error e => .error e
      | .ok b => .ok (a ++ b)

/-- Recursion into every element of an array (source lines 439–441). -/
def extractElems : List Json → Except Unit (List Listing)
  | [] => .ok []
  | v :: rest =>
    match extract_from_json v with
    | .error e => .error e
    | .ok a =>
      match extractElems rest with
      | .error e => .error e
      | .ok b => .ok (a ++ b)
end

/-- Relation: `j'` occurs as a sub-value of `j` (reflexively, through object fields and
array elements) — the nodes visited by the exhaustive recursion of
`_extract_from_json`. -/
inductive SubJ : Json → Json → Prop
  | refl (j : Json) : SubJ j j
  | inObj {j v : Json} {k : String} {fields : List (String × Json)} :
      SubJ j v → (k, v) ∈ fields → SubJ j (.obj fields)
  | inArr {j v : Json} {elems : List Json} :
      SubJ j v → v ∈ elems → SubJ j (.arr elems)

/-- Model of `re.sub(r"<[^>]+>", " ", _)` (source line 447): replace each leftmost,
non-overlapping `<...>` run (at least one non-`>` character between the
brackets, ending at the first `>`) by one space.  State: `none` = outside a
candidate tag; `some buf` = inside one, `buf` holding the characters seen
since `<` in reverse. -/
def stripTagsGo : Option (List Char) → List Char → List Char
  | none, [] => []
  | none, '<' :: rest => stripTagsGo (some []) rest
  | none, c :: rest => c :: stripTagsGo none rest
  | some buf, [] => '<' :: buf.reverse
  | some buf, '>' :: rest =>
    if buf.isEmpty then '<' :: '>' :: stripTagsGo none rest
    else ' ' :: stripTagsGo none rest
  | some buf, c :: rest => stripTagsGo (some (c :: buf)) rest

/-- Model of `re.sub(r"\s+", " ", _)` (source line 448): collapse whitespace runs to
a single space.  The flag records whether we are inside a run already
replaced. -/
def collapseWsGo : Bool → List Char → List Char
  | _, [] => []
  | inRun, c :: rest =>
    if isSpacePy c then
      if inRun then collapseWsGo true rest else ' ' :: collapseWsGo true rest
    else c :: collapseWsGo false rest

/-- The plain text `_regex_parse` scans (source lines 447–448). -/
def plainText (html : String) : List Char :=
  collapseWsGo false (stripTagsGo none html.data)

/-- Model of `re.findall(r"\$(\d+)", text)` (source line 451), as a left-to-right
scanner.  States: `norm` = scanning, `dollar` = just read `$`,
`digits acc` = inside the captured digit run (reversed). -/
inductive PriceScanState where
  | norm
  | dollar
  | digits (acc : List Char)

def findPricesGo : PriceScanState → List Char → List (List Char)
  | .norm, [] => []
  | .dollar, [] => []
  | .digits acc, [] => [acc.reverse]
  | .norm, c :: rest =>
    if c = '$' then findPricesGo .dollar rest else findPricesGo .norm rest
  | .dollar, c :: rest =>
    if c.isDigit then findPricesGo (.digits [c]) rest
    else if c = '$' then findPricesGo .dollar rest
    else findPricesGo .norm rest
  | .digits acc, c :: rest =>
    if c.isDigit then findPricesGo (.digits (c :: acc)) rest
    else acc.reverse ::
      (if c = '$' then findPricesGo .dollar rest else findPricesGo .norm rest)

def findPrices (text : List Char) : List (List Char) := findPricesGo .norm text

/-- Is the next character (if any) a non-word character, i.e. does a `\b`
boundary follow a word character here? -/
def nonWordHead : List Char → Bool
  | [] => true
  | c :: _ => !(isWordChar c)

/-- Match of `[4-5]\.\d{1,2}\b` preceded by `\b` at the head of `s`, given
the previous character (`none` at the start of the text).  The greedy
`\d{1,2}` tries two digits, then backtracks to one; after one digit the
following character must be a non-word character (a second digit was already
ruled out), matching the regex engine's behaviour. -/
def matchRatingAt (prev : Option Char) : List Char → Option (List Char)
  | c :: '.' :: d1 :: tail =>
    if (c = '4' || c = '5') && (match prev with
                                | none => true
                                | some p => !(isWordChar p)) && d1.isDigit then
      match tail with
      | d2 :: rest2 =>
        if d2.isDigit then
          if nonWordHead rest2 then some [c, '.', d1, d2] else none
        else if !(isWordChar d2) then some [c, '.', d1]
        else none
      | [] => some [c, '.', d1]
    else none
  | _ => none

/-- Model of `re.findall(r"\b([4-5]\.\d{1,2})\b", text)` (source line 454):
leftmost, non-overlapping; on failure the scan advances one character, after
a match of length `|m|` it resumes at the match end (`skip` counts the
characters of the current match still to pass over, and the previous
character is tracked for the `\b` look-behind). -/
def findRatingsGo : Option Char → Nat → List Char → List (List Char)
  | _, _, [] => []
  | _, k + 1, c :: rest => findRatingsGo (some c) k rest
  | prev, 0, s@(c :: rest) =>
    match matchRatingAt prev s with
    | some m => m :: findRatingsGo (some c) (m.length - 1) rest
    | none => findRatingsGo (some c) 0 rest

def findRatings (text : List Char) : List (List Char) := findRatingsGo none 0 text

/-- Python `float` of a matched rating `"d.d"` / `"d.dd"`. -/
def ratingVal : List Char → PyF
  | [c, _, d1] => ⟨((digitVal c) * 10 + digitVal d1 : Nat), 1⟩
  | [c, _, d1, d2] => ⟨((digitVal c) * 100 + (digitVal d1) * 10 + digitVal d2 : Nat), 2⟩
  | _ => ⟨0, 0⟩

/-- Match of `re` pattern `/rooms/(\d+)` starting at the head of `s`
(source line 458): returns the captured digits. -/
def matchRoomsAt : List Char → Option (List Char)
  | '/' :: 'r' :: 'o' :: 'o' :: 'm' :: 's' :: '/' :: rest =>
    match rest with
    | c :: rest2 => if c.isDigit then some (c :: rest2.takeWhile Char.isDigit) else none
    | [] => none
  | _ => none

/-- Model of `re.findall(r"/rooms/(\d+)", html)`: leftmost, non-overlapping; after a
match of total length `7 + |digits|` the scan resumes at the match end
(`skip` counts characters still to pass over). -/
def findRoomsGo : Nat → List Char → List (List Char)
  | _, [] => []
  | k + 1, _ :: rest => findRoomsGo k rest
  | 0, s@(_ :: rest) =>
    match matchRoomsAt s with
    | some ds => ds :: findRoomsGo (6 + ds.length) rest
    | none => findRoomsGo 0 rest

def findRooms (html : List Char) : List (List Char) := findRoomsGo 0 html

/-- Model of `list(dict.fromkeys(_))` (source line 460): first-seen-order
deduplication. -/
def dedupStr : List String → List String → List String
  | [], _ => []
  | x :: xs, seen =>
    if seen.contains x then dedupStr xs seen else x :: dedupStr xs (x :: seen)

/-- Pattern `[A-Z][a-z]+` at the head of `s`: one upper-case letter then a maximal
non-empty run of lower-case letters.  Returns (consumed, rest). -/
def matchCapWord : List Char → Option (List Char × List Char)
  | c :: rest =>
    if c.isUpper && (match rest with | d :: _ => d.isLower | [] => false) then
      some (c :: rest.takeWhile Char.isLower, rest.dropWhile Char.isLower)
    else none
  | [] => none

/-- Pattern `\s+` at the head of `s` (maximal, non-empty). -/
def matchSpaces1 : List Char → Option (List Char × List Char)
  | c :: rest =>
    if isSpacePy c then some (c :: rest.takeWhile isSpacePy, rest.dropWhile isSpacePy)
    else none
  | [] => none

/-- Pattern `[A-Z]{2}` at the head of `s`. -/
def matchTwoUppers : List Char → Option (List Char × List Char)
  | a :: b :: rest => if a.isUpper && b.isUpper then some ([a, b], rest) else none
  | _ => none

/-- Pattern `(?:\s+[A-Z][a-z]+)` at the head of `s`. -/
def matchExtraWord (s : List Char) : Option (List Char × List Char) :=
  match matchSpaces1 s with
  | some (sp, r1) =>
    match matchCapWord r1 with
    | some (w, r2) => some (sp ++ w, r2)
    | none => none
  | none => none

/-- Exactly `k` repetitions of `(?:\s+[A-Z][a-z]+)`. -/
def matchExtras : Nat → List Char → Option (List Char × List Char)
  | 0, s => some ([], s)
  | k + 1, s =>
    match matchExtraWord s with
    | some (e, r) =>
      match matchExtras k r with
      | some (es, r2) => some (e ++ es, r2)
      | none => none
    | none => none

/-- Pattern `,?\s+[A-Z]{2}` at the head of `s` (the greedy `,?` tries the comma
first). -/
def matchLocTail (s : List Char) : Option (List Char × List Char) :=
  (match s with
   | ',' :: r1 =>
     match matchSpaces1 r1 with
     | some (sp, r2) =>
       match matchTwoUppers r2 with
       | some (u, r3) => some (',' :: (sp ++ u), r3)
       | none => none
     | none => none
   | _ => none) <|>
  (match matchSpaces1 s with
   | some (sp, r2) =>
     match matchTwoUppers r2 with
     | some (u, r3) => some (sp ++ u, r3)
     | none => none
   | none => none)

/-- The location pattern
`([A-Z][a-z]+(?:\s+[A-Z][a-z]+){0,2},?\s+[A-Z]{2})` (source lines 463–466)
matched at the head of `s`.  The greedy `{0,2}` backtracks from two extra
words down to zero. -/
def matchLocAt (s : List Char) : Option (List Char) :=
  match matchCapWord s with
  | none => none
  | some (w1, r0) =>
    (match matchExtras 2 r0 with
     | some (es, rk) => (matchLocTail rk).map (fun t => w1 ++ es ++ t.1)
     | none => none) <|>
    (match matchExtras 1 r0 with
     | some (es, rk) => (matchLocTail rk).map (fun t => w1 ++ es ++ t.1)
     | none => none) <|>
    ((matchLocTail r0).map (fun t => w1 ++ t.1))

/-- Model of `re.findall` of the location pattern: leftmost, non-overlapping, resuming
at each match end. -/
def findLocsGo : Nat → List Char → List (List Char)
  | _, [] => []
  | k + 1, _ :: rest => findLocsGo k rest
  | 0, s@(_ :: rest) =>
    match matchLocAt s with
    | some m => m :: findLocsGo (m.length - 1) rest
    | none => findLocsGo 0 rest

def findLocs (text : List Char) : List (List Char) := findLocsGo 0 text

/-- The deduplicated `airbnb.com/rooms/<id>` URL list of `_regex_parse`
(source lines 457–460). -/
def regexUrls (html : String) : List String :=
  dedupStr ((findRooms html.data).map
    (fun ds => "airbnb.com/rooms/" ++ String.mk ds)) []

/-- Model of `PropertyFinder._regex_parse` (source lines 445–488). -/
def regex_parse (html : String) : List Listing :=
  let text := plainText html
  let prices := findPrices text
  let ratings := findRatings text
  let property_urls := regexUrls html
  let locations := findLocs text
  let count := min (min prices.length ratings.length) 10
  (List.range count).map (fun i =>
    { name := match property_urls[i]? with
              | some u => u
              | none => "Property " ++ toString (i + 1),
      location := match locations[i]? with
                  | some m => pyStrip (String.mk m)
                  | none => "Unknown",
      price_per_night := some (PyF.ofInt (natOfDigits (prices.getD i []))),
      rating := some (ratingVal (ratings.getD i [])) })

/-- Conversion of one JSON field of an AI response item into an optional
number (used for `price` and `rating`).  Python keeps the raw value; a
string or container here raises a `TypeError` downstream of normalization
(in `_is_valid`'s comparisons), aborting the run with no output, which the
model folds into a normalization error; a `bool` is a Python `int` (`True`
= 1) and survives comparisons. -/
def jNumOpt : Option Json → Except Unit (Option PyF)
  | none => .ok none
  | some .null => .ok none
  | some (.num i frac) => .ok (some ⟨i * (10:Int) ^ frac.length + (natOfDigits frac.data : Int), frac.length⟩)
  | some (.bool b) => .ok (some (PyF.ofInt (if b then 1 else 0)))
  | some _ => .error ()

/-- Conversion of a JSON field used only for display/persistence
(`url`, `currency`): any value is carried, by its `str()` form for
non-strings. -/
def jStrOpt : Option Json → Option String
  | none => none
  | some .null => none
  | some (.str s) => some s
  | some j => some (pyStrJ j)

/-- Normalization of one item of the AI `listings` array
(source lines 355–364).  A non-dict item raises (`item.get`), caught by the
strategy's `except`.  A truthy non-string `name` or `location` makes the
*run* crash after extraction (`.startswith` / string concatenation in
`_calculate_score`, re-raised by `parse_listings`), producing no output;
the model folds those into a normalization error as well. -/
def normItem : Json → Except Unit Listing
  | .obj f =>
    let nameJ0 := (getJ f "name").getD (.str "Unknown Property")
    match nameJ0 with
    | .str s =>
      let locJ := jOr (getJD f "location") (.str "Unknown")
      match locJ with
      | .str loc =>
        match jNumOpt (getJ f "price") with
        | .error e => .error e
        | .ok priceV =>
          match jNumOpt (getJ f "rating") with
          | .error e => .error e
          | .ok ratingV =>
            .ok { name := s, location := loc, price_per_night := priceV,
                  currency := jStrOpt (getJ f "currency"),
                  url := jStrOpt (getJ f "url"), rating := ratingV }
      | _ => .error ()
    | .null => .ok { name := "", location := "Unknown" }
    | _ => .error ()
  | _ => .error ()

/-- Normalization of the whole `listings` array. -/
def normItems : List Json → Except Unit (List Listing)
  | [] => .ok []
  | j :: rest =>
    match normItem j with
    | .error e => .error e
    | .ok l =>
      match normItems rest with
      | .error e => .error e
      | .ok ls => .ok (l :: ls)

/-- Model of `listings = data.get("listings", data if isinstance(data, list) else [])`
followed by the normalization loop (source lines 348–364).  A non-dict
response raises (`data.get` on a list or scalar); iterating a non-list
`listings` value raises at the first element (`item.get`), except for the
empty string and the empty dict, which iterate zero items. -/
def normalizeAi : Json → Except Unit (List Listing)
  | .obj fields =>
    match (getJ fields "listings").getD (.arr []) with
    | .arr items => normItems items
    | .str "" => .ok []
    | .obj [] => .ok []
    | _ => .error ()
  | _ => .error ()

/-- The fallible body of `_extract_with_ai` (source lines 303–378): the
OpenAI Responses call (`aiCall`, `.error` = API error or timeout),
`json.loads` on its text (`loads`, `none` = parse failure), and the
normalization of the `listings` array. -/
def aiBody (aiCall : Except Unit String) (loads : String → Option Json) :
    Except Unit (List Listing) :=
  match aiCall with
  | .error e => .error e
  | .ok raw =>
    match loads raw with
    | none => .error ()
    | some data => normalizeAi data

/-- Model of `PropertyFinder._extract_with_ai` (source lines 295–389): the whole body
runs inside one `try`; any exception is caught and an empty list returned
(source lines 380–389). -/
def extract_with_ai (aiCall : Except Unit String) (loads : String → Option Json) :
    List Listing :=
  match aiBody aiCall loads with
  | .ok l => l
  | .error _ => []

/-- Extraction strategies of the cascade, in priority order. -/
inductive Strat where
  | ai
  | jsonLd
  | regex
deriving DecidableEq, Repr

/-- The JSON-LD strategy of `parse_listings` (source lines 223–235): each
`<script type="application/json">` fragment is `json.loads`-ed and mined;
a fragment whose parse or mining raises is skipped (`except Exception:
continue`).  The fragment list stands for the `re.findall` over the page
(`none` = `json.loads` raised on that fragment). -/
def jsonLdStrategy (fragments : List (Option Json)) : List Listing :=
  fragments.foldr
    (fun f acc =>
      (match f with
       | none => []
       | some j =>
         match extract_from_json j with
         | .ok l => l
         | .error _ => []) ++ acc) []

/-- Model of `PropertyFinder.parse_listings` (source lines 197–279).
`hasPrompt` is the truthiness of `user_prompt`.  Returns the validated,
deduplicated, scored listings together with the list of strategies whose
bodies were executed, in execution order (instrumentation of the source's
control flow). -/
def parse_listings (hasPrompt : Bool) (aiCall : Except Unit String)
    (loads : String → Option Json) (fragments : List (Option Json))
    (html : String) (fetchd : String → String) (keywords : List String) :
    List Listing × List Strat :=
  let step1 : List Listing := if hasPrompt then extract_with_ai aiCall loads else []
  let inv1 : List Strat := if hasPrompt then [.ai] else []
  let step2 : List Listing := if step1.isEmpty then jsonLdStrategy fragments else step1
  let inv2 : List Strat := inv1 ++ (if step1.isEmpty then [.jsonLd] else [])
  let step3 : List Listing := if step2.isEmpty then regex_parse html else step2
  let inv3 : List Strat := inv2 ++ (if step2.isEmpty then [.regex] else [])
  (validateAndDedup fetchd keywords step3 [], inv3)

/-! ## Order lemmas for `PyF` -/

theorem pyfLeTotal (a b : PyF) : PyF.le a b = true ∨ PyF.le b a = true := by
  simp only [PyF.le, decide_eq_true_eq]
  exact Int.le_total _ _

theorem pyfLtOfNotLe {a b : PyF} (h : PyF.le a b = false) : PyF.lt b a = true := by
  simp only [PyF.le, decide_eq_false_iff_not, not_le] at h
  simp only [PyF.lt, decide_eq_true_eq]
  exact h

theorem pyfLeOfNotLe {a b : PyF} (h : PyF.le a b = false) : PyF.le b a = true := by
  simp only [PyF.le, decide_eq_false_iff_not, not_le] at h
  simp only [PyF.le, decide_eq_true_eq]
  exact le_of_lt h

theorem pyfLeTrans {a b c : PyF} (h1 : PyF.le a b = true) (h2 : PyF.le b c = true) :
    PyF.le a c = true := by
  simp only [PyF.le, decide_eq_true_eq] at h1 h2 ⊢
  have hy : (0:Int) < 10 ^ b.exp := pow_pos (by norm_num) _
  have h1' := mul_le_mul_of_nonneg_right h1
    (le_of_lt (pow_pos (by norm_num : (0:Int) < 10) c.exp))
  have h2' := mul_le_mul_of_nonneg_right h2
    (le_of_lt (pow_pos (by norm_num : (0:Int) < 10) a.exp))
  have key : a.mant * 10 ^ c.exp * 10 ^ b.exp ≤ c.mant * 10 ^ a.exp * 10 ^ b.exp := by
    nlinarith [h1', h2']
  exact le_of_mul_le_mul_right key hy

theorem pyfLtLeLeFalse {a b c : PyF} (h1 : PyF.lt a b = true) (h2 : PyF.le b c = true)
    (h3 : PyF.le c a = true) : False := by
  simp only [PyF.lt, PyF.le, decide_eq_true_eq] at h1 h2 h3
  have hy : (0:Int) < 10 ^ b.exp := pow_pos (by norm_num) _
  have h1' := mul_lt_mul_of_pos_right h1 (pow_pos (by norm_num : (0:Int) < 10) c.exp)
  have h2' := mul_le_mul_of_nonneg_right h2
    (le_of_lt (pow_pos (by norm_num : (0:Int) < 10) a.exp))
  have h3' := mul_le_mul_of_nonneg_right h3
    (le_of_lt (pow_pos (by norm_num : (0:Int) < 10) b.exp))
  nlinarith [h1', h2', h3']

theorem pyfEqvIff {a b : PyF} : PyF.eqv a b = true ↔
    (PyF.le a b = true ∧ PyF.le b a = true) := by
  simp only [PyF.eqv, PyF.le, decide_eq_true_eq]
  omega

/-! ## The final ranking (claim C4 support) -/

theorem insertDesc_perm (x : Listing) (l : List Listing) :
    (insertDesc x l).Perm (x :: l) := by
  induction l with
  | nil => simp [insertDesc]
  | cons y ys ih =>
    simp only [insertDesc]
    split
    · exact List.Perm.refl _
    · exact (ih.cons y).trans (List.Perm.swap x y ys)

theorem rankResults_perm (ls : List Listing) : (rankResults ls).Perm ls := by
  induction ls with
  | nil => simp [rankResults]
  | cons x xs ih =>
    simpa [rankResults] using ((insertDesc_perm x _).trans (ih.cons x))

theorem insertDesc_sorted (x : Listing) (l : List Listing)
    (h : l.Pairwise (fun a b => PyF.le (sortKey b) (sortKey a) = true)) :
    (insertDesc x l).Pairwise (fun a b => PyF.le (sortKey b) (sortKey a) = true) := by
  induction l with
  | nil => simp [insertDesc]
  | cons y ys ih =>
    simp only [insertDesc]
    rcases List.pairwise_cons.mp h with ⟨hy, hys⟩
    split
    · rename_i hc
      refine List.pairwise_cons.mpr ⟨?_, h⟩
      intro z hz
      rcases List.mem_cons.mp hz with rfl | hz'
      · exact hc
      · exact pyfLeTrans (hy z hz') hc
    · rename_i hc
      refine List.pairwise_cons.mpr ⟨?_, ih hys⟩
      intro z hz
      have hz' := (insertDesc_perm x ys).mem_iff.mp hz
      rcases List.mem_cons.mp hz' with rfl | hz''
      · exact pyfLeOfNotLe (Bool.eq_false_iff.mpr hc)
      · exact hy z hz''

theorem rankResults_sorted (ls : List Listing) :
    (rankResults ls).Pairwise (fun a b => PyF.le (sortKey b) (sortKey a) = true) := by
  induction ls with
  | nil => simp [rankResults]
  | cons x xs ih => simpa [rankResults] using insertDesc_sorted x _ ih

theorem insertDesc_filter (q : PyF) (x : Listing) (l : List Listing) :
    (insertDesc x l).filter (fun e => PyF.eqv (sortKey e) q) =
      if PyF.eqv (sortKey x) q then
        x :: l.filter (fun e => PyF.eqv (sortKey e) q)
      else l.filter (fun e => PyF.eqv (sortKey e) q) := by
  induction l with
  | nil => cases hx : PyF.eqv (sortKey x) q <;> simp [insertDesc, List.filter, hx]
  | cons y ys ih =>
    simp only [insertDesc]
    split
    · simp [List.filter_cons]
    · rename_i hc
      have hxy : PyF.lt (sortKey x) (sortKey y) = true :=
        pyfLtOfNotLe (Bool.eq_false_iff.mpr hc)
      by_cases hx : PyF.eqv (sortKey x) q = true
      · have hyq : PyF.eqv (sortKey y) q = false := by
          by_cases ht : PyF.eqv (sortKey y) q = true
          · exact (pyfLtLeLeFalse hxy (pyfEqvIff.mp ht).1 (pyfEqvIff.mp hx).2).elim
          · exact Bool.eq_false_iff.mpr ht
        simp [List.filter_cons, ih, hx, hyq]
      · have hx' : PyF.eqv (sortKey x) q = false := Bool.eq_false_iff.mpr hx
        simp [List.filter_cons, ih, hx']

theorem rankResults_filter (ls : List Listing) (q : PyF) :
    (rankResults ls).filter (fun e => PyF.eqv (sortKey e) q) =
      ls.filter (fun e => PyF.eqv (sortKey e) q) := by
  induction ls with
  | nil => simp [rankResults]
  | cons x xs ih =>
    simp only [rankResults, List.foldr_cons] at *
    rw [insertDesc_filter, List.filter_cons]
    by_cases hx : PyF.eqv (sortKey x) q = true
    · simp [hx, ih]
    · simp [Bool.eq_false_iff.mpr hx, ih]

theorem pyfAddTenths (m k : Int) : PyF.add ⟨m, 1⟩ ⟨k, 1⟩ = ⟨m + k, 1⟩ := by
  simp [PyF.add]

theorem foldKw_shape (text : String) (kws : List String) : ∀ m : Int,
    ∃ k : Nat,
      kws.foldl (fun sc kw => if pyIn (pyLower kw) text then PyF.add sc ⟨5, 1⟩ else sc)
        ⟨m, 1⟩ = ⟨m + 5 * (k : Int), 1⟩ := by
  induction kws with
  | nil => intro m; exact ⟨0, by simp⟩
  | cons kw rest ih =>
    intro m
    simp only [List.foldl_cons]
    by_cases h : pyIn (pyLower kw) text = true
    · rcases ih (m + 5) with ⟨k, hk⟩
      refine ⟨k + 1, ?_⟩
      rw [if_pos h, pyfAddTenths, hk]
      congr 1
      push_cast
      ring
    · rcases ih m with ⟨k, hk⟩
      refine ⟨k, ?_⟩
      rw [if_neg h, hk]

theorem round1_tenths (n : Int) : PyF.round1 ⟨n, 1⟩ = ⟨n, 1⟩ := by
  have h1 : n * 10 / ((10:Int) ^ 1) = n := by rw [pow_one]; omega
  have h2 : n * 10 % ((10:Int) ^ 1) = 0 := by rw [pow_one]; omega
  simp only [PyF.round1, h1, h2]
  norm_num

theorem roundmin_shape (M : Int) (h : 50 ≤ M) :
    ∃ n : Int, 50 ≤ n ∧ n ≤ 100 ∧ PyF.round1 (PyF.pymin ⟨M, 1⟩ ⟨100, 1⟩) = ⟨n, 1⟩ := by
  by_cases hmin : PyF.le ⟨M, 1⟩ ⟨100, 1⟩ = true
  · have hM100 : M ≤ 100 := by
      simp only [PyF.le, decide_eq_true_eq] at hmin
      omega
    exact ⟨M, h, hM100, by simp [PyF.pymin, hmin, round1_tenths]⟩
  · exact ⟨100, by omega, le_refl _, by simp [PyF.pymin, hmin, round1_tenths]⟩

theorem score_tail_shape (text : String) (keywords : List String) (c1 c2 : Bool) :
    ∃ n : Int, 50 ≤ n ∧ n ≤ 100 ∧
      PyF.round1 (PyF.pymin
        (if c1 then
           PyF.add (keywords.foldl
             (fun sc kw => if pyIn (pyLower kw) text then PyF.add sc ⟨5, 1⟩ else sc)
             ⟨50, 1⟩) ⟨20, 1⟩
         else if c2 then
           PyF.add (keywords.foldl
             (fun sc kw => if pyIn (pyLower kw) text then PyF.add sc ⟨5, 1⟩ else sc)
             ⟨50, 1⟩) ⟨10, 1⟩
         else keywords.foldl
             (fun sc kw => if pyIn (pyLower kw) text then PyF.add sc ⟨5, 1⟩ else sc)
             ⟨50, 1⟩)
        ⟨100, 1⟩) = ⟨n, 1⟩ := by
  rcases foldKw_shape text keywords 50 with ⟨k, hk⟩
  rw [hk]
  split
  · rw [pyfAddTenths]; exact roundmin_shape _ (by omega)
  · split
    · rw [pyfAddTenths]; exact roundmin_shape _ (by omega)
    · exact roundmin_shape _ (by omega)

theorem calculate_score_shape (fetchd : String → String) (keywords : List String)
    (l : Listing) :
    ∃ n : Int, 50 ≤ n ∧ n ≤ 100 ∧ (calculate_score fetchd keywords l).1 = ⟨n, 1⟩ := by
  simp only [calculate_score]
  exact score_tail_shape _ keywords _ _

/-- C4: for every listing and keyword list, `_calculate_score` returns a
value `n / 10` for an integer `0 ≤ n ≤ 100` (so `0 ≤ score ≤ 10` with at
most one decimal digit), and the final ranking `sorted(_, key=match_score,
reverse=True)` is a permutation, descending in the sort key, in which
listings of equal key keep their emission order (stability). -/
theorem C4_score_bound_and_stable_ranking :
    (∀ (fetchd : String → String) (keywords : List String) (l : Listing),
       ∃ n : Int, 0 ≤ n ∧ n ≤ 100 ∧
         (calculate_score fetchd keywords l).1 = ⟨n, 1⟩ ∧
         PyF.le (PyF.ofInt 0) (calculate_score fetchd keywords l).1 = true ∧
         PyF.le (calculate_score fetchd keywords l).1 (PyF.ofInt 10) = true) ∧
    (∀ ls : List Listing,
       (rankResults ls).Perm ls ∧
       (rankResults ls).Pairwise (fun a b => PyF.le (sortKey b) (sortKey a) = true) ∧
       ∀ q : PyF, (rankResults ls).filter (fun e => PyF.eqv (sortKey e) q) =
         ls.filter (fun e => PyF.eqv (sortKey e) q)) := by
  constructor
  · intro fetchd keywords l
    rcases calculate_score_shape fetchd keywords l with ⟨n, h50, h100, he⟩
    refine ⟨n, by omega, h100, he, ?_, ?_⟩
    · rw [he]; simp [PyF.le, PyF.ofInt, decide_eq_true_eq]; omega
    · rw [he]; simp [PyF.le, PyF.ofInt, decide_eq_true_eq]; omega
  · intro ls
    exact ⟨rankResults_perm ls, rankResults_sorted ls, rankResults_filter ls⟩

/-! ## Enrichment caching (claim C5) -/

theorem calculate_score_snd (fetchd : String → String) (keywords : List String)
    (l : Listing) :
    (calculate_score fetchd keywords l).2 =
      if pyStartsWith l.name "airbnb.com" || pyStartsWith l.name "www.airbnb.com" then
        (if l.description.getD "" = "" then
           ({ l with description := some (fetchd l.name) }, 1)
         else (l, 0))
      else (l, 0) := by
  simp only [calculate_score]
  split
  · split <;> rfl
  · rfl

/-- C5 counterexample: when the description fetch returns the empty string,
the empty string is cached on the listing, but the `if not description`
guard treats it as absent, so scoring the same listing a second time fetches
again — the first call performs one fetch and so does the repeat call,
contradicting "a repeat scoring call never re-fetches". -/
theorem C5_counterexample :
    (calculate_score (fun _ => "") []
        { name := "airbnb.com/rooms/1", location := "x" }).2.2 = 1 ∧
    (calculate_score (fun _ => "") []
        ((calculate_score (fun _ => "") []
            { name := "airbnb.com/rooms/1", location := "x" }).2.1)).2.2 = 1 := by
  decide

/-- C5 (amended): each scoring call performs at most one description fetch;
the description field is only ever written while its cached value is absent
or empty (a non-empty cached description is never invalidated); and a repeat
scoring call performs no fetch provided the cached description is
non-empty.  (The unamended claim fails when the fetch returns `""`: the
empty cache is re-fetched, see the counterexample.) -/
theorem C5_enrichment_caching (fetchd : String → String) (kws kws2 : List String)
    (l : Listing) :
    (calculate_score fetchd kws l).2.2 ≤ 1 ∧
    ((calculate_score fetchd kws l).2.1.description = l.description ∨
      (l.description.getD "" = "" ∧
       (calculate_score fetchd kws l).2.1.description = some (fetchd l.name))) ∧
    (∀ d : String, (calculate_score fetchd kws l).2.1.description = some d → d ≠ "" →
      (calculate_score fetchd kws2 (calculate_score fetchd kws l).2.1).2.2 = 0) ∧
    (∀ d : String, l.description = some d → d ≠ "" →
      (calculate_score fetchd kws l).2.1 = l ∧ (calculate_score fetchd kws l).2.2 = 0) := by
  have h2 := calculate_score_snd fetchd kws l
  by_cases hn : (pyStartsWith l.name "airbnb.com" || pyStartsWith l.name "www.airbnb.com") = true
  · by_cases hd : l.description.getD "" = ""
    · rw [if_pos hn, if_pos hd] at h2
      have h21 : (calculate_score fetchd kws l).2.1 = { l with description := some (fetchd l.name) } :=
        congrArg Prod.fst h2
      have h22 : (calculate_score fetchd kws l).2.2 = 1 := congrArg Prod.snd h2
      refine ⟨by omega, Or.inr ⟨hd, by rw [h21]⟩, ?_, ?_⟩
      · intro d hdd hne
        have hdval : fetchd l.name = d := by
          rw [h21] at hdd
          exact Option.some.inj hdd
        have h2' := calculate_score_snd fetchd kws2 (calculate_score fetchd kws l).2.1
        rw [h21] at h2' ⊢
        simp only at h2'
        rw [if_pos hn] at h2'
        rw [if_neg (by simp [hdval, hne])] at h2'
        exact congrArg Prod.snd h2'
      · intro d hdl hne
        rw [hdl] at hd
        simp at hd
        exact absurd hd hne
    · rw [if_pos hn, if_neg hd] at h2
      have h21 : (calculate_score fetchd kws l).2.1 = l := congrArg Prod.fst h2
      have h22 : (calculate_score fetchd kws l).2.2 = 0 := congrArg Prod.snd h2
      refine ⟨by omega, Or.inl (by rw [h21]), ?_, ?_⟩
      · intro d hdd hne
        have h2' := calculate_score_snd fetchd kws2 (calculate_score fetchd kws l).2.1
        rw [h21] at h2' hdd ⊢
        rw [if_pos hn, if_neg (by simp [hdd, hne])] at h2'
        exact congrArg Prod.snd h2'
      · intro d hdl hne
        exact ⟨h21, h22⟩
  · rw [if_neg hn] at h2
    have h21 : (calculate_score fetchd kws l).2.1 = l := congrArg Prod.fst h2
    have h22 : (calculate_score fetchd kws l).2.2 = 0 := congrArg Prod.snd h2
    refine ⟨by omega, Or.inl (by rw [h21]), ?_, ?_⟩
    · intro d hdd hne
      have h2' := calculate_score_snd fetchd kws2 (calculate_score fetchd kws l).2.1
      rw [h21] at h2' ⊢
      rw [if_neg hn] at h2'
      exact congrArg Prod.snd h2'
    · intro d hdl hne
      exact ⟨h21, h22⟩

theorem C5_enrichment_caching_witness :
    (calculate_score (fun _ => "d") []
        { name := "airbnb.com/rooms/2", location := "x",
          description := some "waterfront view" }).2.1 =
      { name := "airbnb.com/rooms/2", location := "x",
        description := some "waterfront view" } ∧
    (calculate_score (fun _ => "d") []
        { name := "airbnb.com/rooms/2", location := "x",
          description := some "waterfront view" }).2.2 = 0 :=
  (C5_enrichment_caching (fun _ => "d") [] []
      { name := "airbnb.com/rooms/2", location := "x",
        description := some "waterfront view" }).2.2.2
    "waterfront view" rfl (by decide)

/-! ## Validation, deduplication (claims C3 and C2) -/

theorem validateAndDedup_characterize (fetchd : String → String) (kws : List String) :
    ∀ (cands : List Listing) (seen : List String),
      validateAndDedup fetchd kws cands seen =
        (dedupFirstByName (cands.filter (fun c => is_valid c)) seen).map
          (scoreTag fetchd kws) := by
  intro cands
  induction cands with
  | nil => intro seen; rfl
  | cons l rest ih =>
    intro seen
    by_cases hv : is_valid l = true
    · by_cases hc : seen.contains l.name = true
      · have hc' : l.name ∈ seen := by simpa using hc
        simp [validateAndDedup, List.filter_cons, dedupFirstByName, hv, hc, hc', ih]
      · have hc' : l.name ∉ seen := by simpa using hc
        simp [validateAndDedup, List.filter_cons, dedupFirstByName, hv,
              Bool.eq_false_iff.mpr hc, hc', ih]
    · simp [validateAndDedup, List.filter_cons, dedupFirstByName,
            Bool.eq_false_iff.mpr hv, ih]

theorem dedupFirstByName_not_seen :
    ∀ (cands : List Listing) (seen : List String) (l : Listing),
      l ∈ dedupFirstByName cands seen → seen.contains l.name = false := by
  intro cands
  induction cands with
  | nil => intro seen l h; simp [dedupFirstByName] at h
  | cons c rest ih =>
    intro seen l h
    simp only [dedupFirstByName] at h
    split at h
    · exact ih seen l h
    · rename_i hc
      rcases List.mem_cons.mp h with rfl | h'
      · exact Bool.eq_false_iff.mpr hc
      · have h2 := ih (c.name :: seen) l h'
        simp only [List.contains_cons, Bool.or_eq_false_iff] at h2
        exact h2.2

theorem dedupFirstByName_nodup :
    ∀ (cands : List Listing) (seen : List String),
      (dedupFirstByName cands seen).Pairwise (fun a b => a.name ≠ b.name) := by
  intro cands
  induction cands with
  | nil => intro seen; simp [dedupFirstByName]
  | cons c rest ih =>
    intro seen
    simp only [dedupFirstByName]
    split
    · exact ih seen
    · refine List.pairwise_cons.mpr ⟨?_, ih (c.name :: seen)⟩
      intro z hz hnm
      have h2 := dedupFirstByName_not_seen rest (c.name :: seen) z hz
      simp only [List.contains_cons, Bool.or_eq_false_iff] at h2
      have hzc : (z.name == c.name) = false := h2.1
      simp only [beq_eq_false_iff_ne, ne_eq] at hzc
      exact hzc hnm.symm

theorem calculate_score_keeps (fetchd : String → String) (kws : List String)
    (l : Listing) :
    (calculate_score fetchd kws l).2.1.name = l.name ∧
    (calculate_score fetchd kws l).2.1.location = l.location ∧
    (calculate_score fetchd kws l).2.1.price_per_night = l.price_per_night ∧
    (calculate_score fetchd kws l).2.1.price = l.price ∧
    (calculate_score fetchd kws l).2.1.rating = l.rating ∧
    (calculate_score fetchd kws l).2.1.url = l.url ∧
    (calculate_score fetchd kws l).2.1.currency = l.currency := by
  have h := calculate_score_snd fetchd kws l
  have h21 := congrArg Prod.fst h
  simp only at h21
  rw [h21]
  split
  · split <;> simp
  · simp

theorem scoreTag_keeps (fetchd : String → String) (kws : List String) (l : Listing) :
    (scoreTag fetchd kws l).name = l.name ∧
    (scoreTag fetchd kws l).location = l.location ∧
    (scoreTag fetchd kws l).price_per_night = l.price_per_night ∧
    (scoreTag fetchd kws l).price = l.price ∧
    (scoreTag fetchd kws l).rating = l.rating ∧
    (scoreTag fetchd kws l).match_score = some (calculate_score fetchd kws l).1 := by
  rcases calculate_score_keeps fetchd kws l with ⟨h1, h2, h3, h4, h5, _, _⟩
  exact ⟨h1, h2, h3, h4, h5, rfl⟩

/-- C3 (amended): over any candidate sequence, the validate/dedup loop of
`parse_listings` emits exactly the *valid* candidates, keeping the first
valid occurrence of each name (case-sensitive, exact match) in emission
order, scored; output names are pairwise distinct.  (The unamended claim —
the first-*emitted* candidate's fields win — fails when the first duplicate
is invalid: an invalid candidate never enters `seen_names`, so a later valid
duplicate is emitted with its own fields; see the counterexample.) -/
theorem C3_dedup_first_valid_occurrence (fetchd : String → String)
    (kws : List String) (cands : List Listing) :
    validateAndDedup fetchd kws cands [] =
      (dedupFirstByName (cands.filter (fun c => is_valid c)) []).map
        (scoreTag fetchd kws) ∧
    (validateAndDedup fetchd kws cands []).Pairwise (fun a b => a.name ≠ b.name) := by
  refine ⟨validateAndDedup_characterize fetchd kws cands [], ?_⟩
  rw [validateAndDedup_characterize fetchd kws cands []]
  rw [List.pairwise_map]
  have h := dedupFirstByName_nodup (cands.filter (fun c => is_valid c)) []
  refine h.imp ?_
  intro a b hab
  rw [(scoreTag_keeps fetchd kws a).1, (scoreTag_keeps fetchd kws b).1]
  exact hab

/-- C3 counterexample: two candidates both named `"A"`; the first is
invalid (rating `6 > 5`), the second valid (rating `4`).  The claim says the
retained entry named `"A"` carries the fields of the first-emitted
candidate, i.e. rating `6`; in fact the single output entry carries the
second candidate's rating `4`, because an invalid candidate never enters
`seen_names`. -/
theorem C3_counterexample :
    ¬ (∀ l ∈ validateAndDedup (fun _ => "") []
          [{ name := "A", location := "L", rating := some ⟨6, 0⟩ },
           { name := "A", location := "L", rating := some ⟨4, 0⟩ }] [],
        l.rating = some ⟨6, 0⟩) := by
  decide

/-! ## The structured-data miner (claim C6) -/

theorem Json.indOn {P : Json → Prop}
    (hnull : P .null) (hbool : ∀ b, P (.bool b)) (hnum : ∀ i f, P (.num i f))
    (hstr : ∀ s, P (.str s))
    (harr : ∀ l, (∀ x ∈ l, P x) → P (.arr l))
    (hobj : ∀ fs, (∀ kv ∈ fs, P (Prod.snd kv)) → P (.obj fs)) : ∀ j, P j
  | .null => hnull
  | .bool b => hbool b
  | .num i f => hnum i f
  | .str s => hstr s
  | .arr l => harr l (fun x hx =>
      Json.indOn hnull hbool hnum hstr harr hobj x)
  | .obj fs => hobj fs (fun kv hkv =>
      Json.indOn hnull hbool hnum hstr harr hobj kv.2)
termination_by j => sizeOf j
decreasing_by
  · have h1 : sizeOf x < sizeOf l := List.sizeOf_lt_of_mem hx
    simp only [Json.arr.sizeOf_spec]
    omega
  · have h1 : sizeOf kv < sizeOf fs := List.sizeOf_lt_of_mem hkv
    have h2 : sizeOf kv.2 < sizeOf kv := by
      obtain ⟨k, v⟩ := kv
      simp only [Prod.mk.sizeOf_spec]
      omega
    simp only [Json.obj.sizeOf_spec]
    omega

theorem extractElems_mem (c : Listing) :
    ∀ (elems : List Json) (L : List Listing), extractElems elems = .ok L →
      (c ∈ L ↔ ∃ v, v ∈ elems ∧ ∃ Lv, extract_from_json v = .ok Lv ∧ c ∈ Lv) := by
  intro elems
  induction elems with
  | nil =>
    intro L h
    simp only [extractElems] at h
    injection h with h
    subst h
    simp
  | cons v rest ih =>
    intro L h
    simp only [extractElems] at h
    cases hv : extract_from_json v with
    | error e => rw [hv] at h; exact absurd h (by simp)
    | ok a =>
      rw [hv] at h
      cases hr : extractElems rest with
      | error e => rw [hr] at h; exact absurd h (by simp)
      | ok b =>
        rw [hr] at h
        injection h with h
        subst h
        constructor
        · intro hc
          rcases List.mem_append.mp hc with hca | hcb
          · exact ⟨v, List.mem_cons_self v rest, a, hv, hca⟩
          · rcases (ih b hr).mp hcb with ⟨v', hv', Lv, hLv, hcv⟩
            exact ⟨v', List.mem_cons_of_mem v hv', Lv, hLv, hcv⟩
        · rintro ⟨v', hv', Lv, hLv, hcv⟩
          rcases List.mem_cons.mp hv' with rfl | hv''
          · rw [hv] at hLv
            injection hLv with hLv
            subst hLv
            exact List.mem_append.mpr (Or.inl hcv)
          · exact List.mem_append.mpr (Or.inr ((ih b hr).mpr ⟨v', hv'', Lv, hLv, hcv⟩))

theorem extractFields_mem (c : Listing) :
    ∀ (fields : List (String × Json)) (L : List Listing), extractFields fields = .ok L →
      (c ∈ L ↔ ∃ kv, kv ∈ fields ∧ ∃ Lv, extract_from_json (Prod.snd kv) = .ok Lv ∧ c ∈ Lv) := by
  intro fields
  induction fields with
  | nil =>
    intro L h
    simp only [extractFields] at h
    injection h with h
    subst h
    simp
  | cons kv rest ih =>
    intro L h
    obtain ⟨k, v⟩ := kv
    simp only [extractFields] at h
    cases hv : extract_from_json v with
    | error e => rw [hv] at h; exact absurd h (by simp)
    | ok a =>
      rw [hv] at h
      cases hr : extractFields rest with
      | error e => rw [hr] at h; exact absurd h (by simp)
      | ok b =>
        rw [hr] at h
        injection h with h
        subst h
        constructor
        · intro hc
          rcases List.mem_append.mp hc with hca | hcb
          · exact ⟨(k, v), List.mem_cons_self _ rest, a, hv, hca⟩
          · rcases (ih b hr).mp hcb with ⟨kv', hkv', Lv, hLv, hcv⟩
            exact ⟨kv', List.mem_cons_of_mem _ hkv', Lv, hLv, hcv⟩
        · rintro ⟨kv', hkv', Lv, hLv, hcv⟩
          rcases List.mem_cons.mp hkv' with rfl | hkv''
          · simp only at hLv
            rw [hv] at hLv
            injection hLv with hLv
            subst hLv
            exact List.mem_append.mpr (Or.inl hcv)
          · exact List.mem_append.mpr (Or.inr ((ih b hr).mpr ⟨kv', hkv'', Lv, hLv, hcv⟩))

theorem nodeHead_mem {fs : List (String × Json)} {head : List Listing} {c : Listing}
    (h : nodeHead fs = .ok head) : c ∈ head ↔ nodeHead fs = .ok [c] := by
  have hcopy := h
  unfold nodeHead at h
  split at h
  · dsimp only at h
    split at h
    · injection h with h
      subst h
      simp only [List.mem_singleton]
      constructor
      · intro hc; subst hc; exact hcopy
      · intro hc
        rw [hcopy] at hc
        injection hc with hc
        exact ((List.cons.injEq _ _ _ _).mp hc).1.symm
    · injection h with h
      subst h
      simp only [List.not_mem_nil, false_iff]
      intro hc
      rw [hcopy] at hc
      injection hc with hc
      exact absurd hc (by simp)
  · exact absurd h (by simp)

theorem extractElems_ok_of_mem :
    ∀ (elems : List Json) (L : List Listing), extractElems elems = .ok L →
      ∀ v ∈ elems, ∃ Lv, extract_from_json v = .ok Lv := by
  intro elems
  induction elems with
  | nil => intro L _ v hv; simp at hv
  | cons w rest ih =>
    intro L h v hv
    simp only [extractElems] at h
    cases hw : extract_from_json w with
    | error e => rw [hw] at h; exact absurd h (by simp)
    | ok a =>
      rw [hw] at h
      cases hr : extractElems rest with
      | error e => rw [hr] at h; exact absurd h (by simp)
      | ok b =>
        rcases List.mem_cons.mp hv with rfl | hv'
        · exact ⟨a, hw⟩
        · exact ih b hr v hv'

theorem extractFields_ok_of_mem :
    ∀ (fields : List (String × Json)) (L : List Listing), extractFields fields = .ok L →
      ∀ kv ∈ fields, ∃ Lv, extract_from_json (Prod.snd kv) = .ok Lv := by
  intro fields
  induction fields with
  | nil => intro L _ kv hkv; simp at hkv
  | cons kw rest ih =>
    intro L h kv hkv
    obtain ⟨k, w⟩ := kw
    simp only [extractFields] at h
    cases hw : extract_from_json w with
    | error e => rw [hw] at h; exact absurd h (by simp)
    | ok a =>
      rw [hw] at h
      cases hr : extractFields rest with
      | error e => rw [hr] at h; exact absurd h (by simp)
      | ok b =>
        rcases List.mem_cons.mp hkv with rfl | hkv'
        · exact ⟨a, hw⟩
        · exact ih b hr kv hkv'

theorem extract_mem_characterize :
    ∀ (j : Json) (L : List Listing), extract_from_json j = .ok L →
      ∀ c : Listing, (c ∈ L ↔ ∃ fields, SubJ (.obj fields) j ∧ nodeHead fields = .ok [c]) := by
  intro j
  induction j using Json.indOn with
  | hnull =>
    intro L h c
    simp only [extract_from_json] at h
    injection h with h
    subst h
    simp only [List.not_mem_nil, false_iff]
    rintro ⟨fields, hsub, _⟩
    cases hsub
  | hbool b =>
    intro L h c
    simp only [extract_from_json] at h
    injection h with h
    subst h
    simp only [List.not_mem_nil, false_iff]
    rintro ⟨fields, hsub, _⟩
    cases hsub
  | hnum i f =>
    intro L h c
    simp only [extract_from_json] at h
    injection h with h
    subst h
    simp only [List.not_mem_nil, false_iff]
    rintro ⟨fields, hsub, _⟩
    cases hsub
  | hstr s =>
    intro L h c
    simp only [extract_from_json] at h
    injection h with h
    subst h
    simp only [List.not_mem_nil, false_iff]
    rintro ⟨fields, hsub, _⟩
    cases hsub
  | harr l ih =>
    intro L h c
    simp only [extract_from_json] at h
    constructor
    · intro hc
      rcases (extractElems_mem c l L h).mp hc with ⟨v, hv, Lv, hLv, hcv⟩
      rcases (ih v hv Lv hLv c).mp hcv with ⟨fields, hsub, hnh⟩
      exact ⟨fields, SubJ.inArr hsub hv, hnh⟩
    · rintro ⟨fields, hsub, hnh⟩
      cases hsub with
      | inArr hsub' hv =>
        rename_i v
        rcases extractElems_ok_of_mem l L h v hv with ⟨Lv, hLv⟩
        exact (extractElems_mem c l L h).mpr
          ⟨v, hv, Lv, hLv, (ih v hv Lv hLv c).mpr ⟨fields, hsub', hnh⟩⟩
  | hobj fs ih =>
    intro L h c
    simp only [extract_from_json] at h
    cases hnh : nodeHead fs with
    | error e => rw [hnh] at h; exact absurd h (by simp)
    | ok head =>
      rw [hnh] at h
      cases hfl : extractFields fs with
      | error e => rw [hfl] at h; exact absurd h (by simp)
      | ok tail =>
        rw [hfl] at h
        injection h with h
        subst h
        constructor
        · intro hc
          rcases List.mem_append.mp hc with hch | hct
          · exact ⟨fs, SubJ.refl _, (nodeHead_mem hnh).mp hch⟩
          · rcases (extractFields_mem c fs tail hfl).mp hct with ⟨kv, hkv, Lv, hLv, hcv⟩
            rcases (ih kv hkv Lv hLv c).mp hcv with ⟨fields, hsub, hnh'⟩
            obtain ⟨k, v⟩ := kv
            exact ⟨fields, SubJ.inObj hsub hkv, hnh'⟩
        · rintro ⟨fields, hsub, hnh'⟩
          cases hsub with
          | refl => exact List.mem_append.mpr (Or.inl ((nodeHead_mem hnh).mpr hnh'))
          | inObj hsub' hkv =>
            rename_i v k
            rcases extractFields_ok_of_mem fs tail hfl (k, v) hkv with ⟨Lv, hLv⟩
            refine List.mem_append.mpr (Or.inr ?_)
            exact (extractFields_mem c fs tail hfl).mpr
              ⟨(k, v), hkv, Lv, hLv, (ih (k, v) hkv Lv hLv c).mpr ⟨fields, hsub', hnh'⟩⟩

theorem nodeHead_ok_iff (fields : List (String × Json)) (c : Listing) :
    nodeHead fields = .ok [c] ↔
      ∃ s, nameJ fields = .str s ∧ pyStrip s ≠ "" ∧
        ((firstIntRun (priceRawJ fields).data).isSome = true ∨
         (firstDecimalRun (ratingRawJ fields).data).isSome = true) ∧
        c = { name := pyStrip s,
              location := nodeLocation fields,
              price_per_night := (firstIntRun (priceRawJ fields).data).map
                (fun ds => PyF.ofInt (natOfDigits ds)),
              rating := (firstDecimalRun (ratingRawJ fields).data).map
                (fun pr => decOfParts pr.1 pr.2) } := by
  cases hn : nameJ fields with
  | str s =>
    simp only [nodeHead, hn]
    by_cases hcond : (pyStrip s ≠ "" ∧
        ((firstIntRun (priceRawJ fields).data).isSome = true ∨
         (firstDecimalRun (ratingRawJ fields).data).isSome = true))
    · rw [if_pos (by simp only [Bool.and_eq_true, decide_eq_true_eq, Bool.or_eq_true]; exact hcond)]
      constructor
      · intro h
        injection h with h
        have hc := ((List.cons.injEq _ _ _ _).mp h).1
        exact ⟨s, rfl, hcond.1, hcond.2, hc.symm⟩
      · rintro ⟨s', hs', _, _, hc⟩
        have hss : s = s' := by injection hs'
        subst hss
        rw [hc]
    · rw [if_neg (by simp only [Bool.and_eq_true, decide_eq_true_eq, Bool.or_eq_true]; exact hcond)]
      constructor
      · intro h
        injection h with h
        exact absurd h (by simp)
      · rintro ⟨s', hs', hne, hpr, _⟩
        have hss : s = s' := by injection hs'
        subst hss
        exact absurd ⟨hne, hpr⟩ hcond
  | null =>
    simp only [nodeHead, hn]
    constructor
    · intro h; exact absurd h (by simp)
    · rintro ⟨s', hs', _, _, _⟩; exact absurd hs' (by simp)
  | bool b =>
    simp only [nodeHead, hn]
    constructor
    · intro h; exact absurd h (by simp)
    · rintro ⟨s', hs', _, _, _⟩; exact absurd hs' (by simp)
  | num i f =>
    simp only [nodeHead, hn]
    constructor
    · intro h; exact absurd h (by simp)
    · rintro ⟨s', hs', _, _, _⟩; exact absurd hs' (by simp)
  | arr l =>
    simp only [nodeHead, hn]
    constructor
    · intro h; exact absurd h (by simp)
    · rintro ⟨s', hs', _, _, _⟩; exact absurd hs' (by simp)
  | obj fs2 =>
    simp only [nodeHead, hn]
    constructor
    · intro h; exact absurd h (by simp)
    · rintro ⟨s', hs', _, _, _⟩; exact absurd hs' (by simp)

/-- C6 (amended): on every parsed JSON value on which `_extract_from_json`
does not raise, the returned candidates are exactly those of the object
sub-nodes — at any depth, reached through every object field and every array
element — whose coalesced name/title value strips to a non-empty string and
for which at least one of price/rating is parseable; the absence of one
parseable number yields a `none` field rather than discarding the node.
(The unamended claim, quantified over *every* parsed JSON value, fails
because the miner raises an `AttributeError` on a node whose truthy
name/title value is not a string — see the counterexample.) -/
theorem C6_miner_exhaustive_emission :
    (∀ (j : Json) (L : List Listing), extract_from_json j = .ok L →
       ∀ c : Listing, (c ∈ L ↔ ∃ fields, SubJ (.obj fields) j ∧ nodeHead fields = .ok [c])) ∧
    (∀ (fields : List (String × Json)) (c : Listing),
       nodeHead fields = .ok [c] ↔
         ∃ s, nameJ fields = .str s ∧ pyStrip s ≠ "" ∧
           ((firstIntRun (priceRawJ fields).data).isSome = true ∨
            (firstDecimalRun (ratingRawJ fields).data).isSome = true) ∧
           c = { name := pyStrip s,
                 location := nodeLocation fields,
                 price_per_night := (firstIntRun (priceRawJ fields).data).map
                   (fun ds => PyF.ofInt (natOfDigits ds)),
                 rating := (firstDecimalRun (ratingRawJ fields).data).map
                   (fun pr => decOfParts pr.1 pr.2) }) :=
  ⟨extract_mem_characterize, nodeHead_ok_iff⟩

theorem C6_miner_exhaustive_emission_witness :
    ({ name := "Lake Cabin", location := "Shreveport, LA",
       price_per_night := some ⟨89, 0⟩, rating := some ⟨48, 1⟩ } : Listing) ∈
      [({ name := "Lake Cabin", location := "Shreveport, LA",
          price_per_night := some ⟨89, 0⟩, rating := some ⟨48, 1⟩ } : Listing)] :=
  (C6_miner_exhaustive_emission.1
      (.obj [("a", .arr [.obj [("name", .str "Lake Cabin"), ("price", .str "$89"),
                               ("rating", .num 4 "8"), ("city", .str "Shreveport, LA")]])])
      [{ name := "Lake Cabin", location := "Shreveport, LA",
         price_per_night := some ⟨89, 0⟩, rating := some ⟨48, 1⟩ }]
      rfl
      { name := "Lake Cabin", location := "Shreveport, LA",
        price_per_night := some ⟨89, 0⟩, rating := some ⟨48, 1⟩ }).mpr
    ⟨[("name", .str "Lake Cabin"), ("price", .str "$89"),
      ("rating", .num 4 "8"), ("city", .str "Shreveport, LA")],
     SubJ.inObj
       (SubJ.inArr (SubJ.refl _) (List.Mem.head _))
       (List.Mem.head _),
     rfl⟩

/-- C6 counterexample: a node whose `name` value is the number `5` (truthy
and not a string) makes `_extract_from_json` raise an `AttributeError` at
`.strip()` instead of returning a candidate sequence, so the claim as
stated — a normal return for every parsed JSON value — fails. -/
theorem C6_counterexample :
    extract_from_json (.obj [("name", .num 5 ""), ("price", .str "$3")]) = .error () :=
  rfl

/-! ## The extraction cascade (claims C1 and C7) -/

/-- C7: the model-based strategy never propagates an exception: its whole
body — API call, `json.loads`, normalization — runs inside one `try`, and
any failure is caught inside `_extract_with_ai` and yields the empty
sequence, after which `parse_listings` proceeds to the structured-data
strategy. -/
theorem C7_ai_failures_caught (aiCall : Except Unit String)
    (loads : String → Option Json) :
    (∀ e, aiBody aiCall loads = .error e → extract_with_ai aiCall loads = []) ∧
    (∀ l, aiBody aiCall loads = .ok l → extract_with_ai aiCall loads = l) ∧
    (∀ (fragments : List (Option Json)) (html : String) (fetchd : String → String)
       (kws : List String) (e : Unit),
       aiBody aiCall loads = .error e →
       Strat.jsonLd ∈ (parse_listings true aiCall loads fragments html fetchd kws).2) := by
  refine ⟨?_, ?_, ?_⟩
  · intro e h; simp [extract_with_ai, h]
  · intro l h; simp [extract_with_ai, h]
  · intro fragments html fetchd kws e h
    have hempty : extract_with_ai aiCall loads = [] := by simp [extract_with_ai, h]
    simp [parse_listings, hempty]

theorem C7_ai_failures_caught_witness :
    extract_with_ai (.error ()) (fun _ => none) = [] :=
  (C7_ai_failures_caught (.error ()) (fun _ => none)).1 () rfl

/-- C1: the cascade of `parse_listings` attempts strategies in the fixed
priority order model-based (only when a prompt is supplied) → structured
data → regex; it uses the output of the first strategy returning a
non-empty sequence: a non-empty model-based result means the structured-data
and regex strategy bodies are not executed and the model-based output is
validated, and a non-empty structured-data result (with the model-based
result empty or absent) means the regex strategy body is not executed and
the structured-data output is validated; a strategy failure surfaces as an
empty result (claim C7) and the next strategy is tried; and when all
strategies return empty the result is the empty sequence, not an error. -/
theorem C1_cascade_first_success (hasPrompt : Bool) (aiCall : Except Unit String)
    (loads : String → Option Json) (fragments : List (Option Json)) (html : String)
    (fetchd : String → String) (kws : List String) :
    (parse_listings hasPrompt aiCall loads fragments html fetchd kws).2.Sublist
        [Strat.ai, Strat.jsonLd, Strat.regex] ∧
    (Strat.ai ∈ (parse_listings hasPrompt aiCall loads fragments html fetchd kws).2 ↔
       hasPrompt = true) ∧
    (hasPrompt = true → extract_with_ai aiCall loads ≠ [] →
       (parse_listings hasPrompt aiCall loads fragments html fetchd kws).2 = [Strat.ai] ∧
       (parse_listings hasPrompt aiCall loads fragments html fetchd kws).1 =
         validateAndDedup fetchd kws (extract_with_ai aiCall loads) []) ∧
    ((if hasPrompt then extract_with_ai aiCall loads else []) = [] →
       Strat.jsonLd ∈ (parse_listings hasPrompt aiCall loads fragments html fetchd kws).2) ∧
    ((if hasPrompt then extract_with_ai aiCall loads else []) = [] →
       jsonLdStrategy fragments ≠ [] →
       Strat.regex ∉ (parse_listings hasPrompt aiCall loads fragments html fetchd kws).2 ∧
       (parse_listings hasPrompt aiCall loads fragments html fetchd kws).1 =
         validateAndDedup fetchd kws (jsonLdStrategy fragments) []) ∧
    ((if hasPrompt then extract_with_ai aiCall loads else []) = [] →
       jsonLdStrategy fragments = [] →
       Strat.regex ∈ (parse_listings hasPrompt aiCall loads fragments html fetchd kws).2 ∧
       (parse_listings hasPrompt aiCall loads fragments html fetchd kws).1 =
         validateAndDedup fetchd kws (regex_parse html) []) ∧
    ((if hasPrompt then extract_with_ai aiCall loads else []) = [] →
       jsonLdStrategy fragments = [] → regex_parse html = [] →
       (parse_listings hasPrompt aiCall loads fragments html fetchd kws).1 = []) := by
  cases hasPrompt with
  | false =>
    by_cases h2 : jsonLdStrategy fragments = []
    · by_cases h3 : regex_parse html = []
      · simp [parse_listings, h2, h3, validateAndDedup]
      · simp [parse_listings, h2, h3]
    · simp [parse_listings, h2]
  | true =>
    by_cases h1 : extract_with_ai aiCall loads = []
    · by_cases h2 : jsonLdStrategy fragments = []
      · by_cases h3 : regex_parse html = []
        · simp [parse_listings, h1, h2, h3, validateAndDedup]
      
        · simp [parse_listings, h1, h2, h3]
      · simp [parse_listings, h1, h2]
    · simp [parse_listings, h1]

theorem C1_cascade_first_success_witness :
    (parse_listings true (.ok "resp")
        (fun _ => some (.obj [("listings",
            .arr [.obj [("name", .str "A"), ("price", .num 80 "")]])]))
        [] "" (fun _ => "") []).2 = [Strat.ai] :=
  ((C1_cascade_first_success true (.ok "resp")
      (fun _ => some (.obj [("listings",
          .arr [.obj [("name", .str "A"), ("price", .num 80 "")]])]))
      [] "" (fun _ => "") []).2.2.1 rfl (by decide)).1

/-! ## Output validity (claim C2) -/

theorem validateAndDedup_mem (fetchd : String → String) (kws : List String) :
    ∀ (cands : List Listing) (seen : List String) (l : Listing),
      l ∈ validateAndDedup fetchd kws cands seen →
      ∃ c, c ∈ cands ∧ is_valid c = true ∧ l = scoreTag fetchd kws c := by
  intro cands
  induction cands with
  | nil => intro seen l h; simp [validateAndDedup] at h
  | cons c rest ih =>
    intro seen l h
    simp only [validateAndDedup] at h
    split at h
    · rename_i hcond
      rcases List.mem_cons.mp h with rfl | h'
      · exact ⟨c, List.mem_cons_self c rest,
          ((Bool.and_eq_true _ _).mp hcond).1, rfl⟩
      · rcases ih _ l h' with ⟨c', hc', hv, he⟩
        exact ⟨c', List.mem_cons_of_mem _ hc', hv, he⟩
    · rcases ih _ l h with ⟨c', hc', hv, he⟩
      exact ⟨c', List.mem_cons_of_mem _ hc', hv, he⟩

theorem is_valid_iff (c : Listing) :
    is_valid c = true ↔
      (c.name ≠ "" ∧
       (∀ p, effPrice c = some p → PyF.lt (PyF.ofInt 0) p = true) ∧
       (∀ r, c.rating = some r →
          PyF.le (PyF.ofInt 0) r = true ∧ PyF.le r (PyF.ofInt 5) = true)) := by
  unfold is_valid
  split
  · rename_i hn
    simp [hn]
  · rename_i hn
    split
    · rename_i hp
      cases hep : effPrice c with
      | none => rw [hep] at hp; simp at hp
      | some p =>
        rw [hep] at hp
        simp only [Bool.false_eq_true, false_iff]
        rintro ⟨_, hpos, _⟩
        have hlt := hpos p rfl
        simp only [PyF.lt, PyF.le, PyF.ofInt, decide_eq_true_eq] at hlt hp
        simp only [pow_zero, mul_one, zero_mul] at hlt hp
        omega
    · rename_i hp
      constructor
      · intro hr
        refine ⟨hn, ?_, ?_⟩
        · intro p hep
          have hple : PyF.le p (PyF.ofInt 0) = false := by
            cases hle : PyF.le p (PyF.ofInt 0) with
            | false => rfl
            | true => rw [hep] at hp; exact absurd hle (by simpa using hp)
          exact pyfLtOfNotLe hple
        · intro r hrr
          rw [hrr] at hr
          exact (Bool.and_eq_true _ _).mp hr
      · rintro ⟨_, _, hrc⟩
        cases hrr : c.rating with
        | none => rfl
        | some r => exact (Bool.and_eq_true _ _).mpr (hrc r hrr)

/-- C2 (amended): every listing in the output of `parse_listings` has a
non-empty name, a rating (when present) in `[0, 5]`, and a
price-per-night (when present) that is *non-negative*; and a candidate
passes `_is_valid` iff its name is non-empty, its effective price — Python's
`get("price_per_night") or get("price")`, which skips a falsy zero — is
absent or strictly positive, and its rating (when present) is in `[0, 5]`.
(The unamended "price, when present, is strictly positive" fails: a zero
`price_per_night` is falsy, so the validator never inspects it and a
zero-priced listing is admitted — see the counterexample.) -/
theorem C2_output_validity :
    (∀ (hasPrompt : Bool) (aiCall : Except Unit String) (loads : String → Option Json)
       (fragments : List (Option Json)) (html : String) (fetchd : String → String)
       (kws : List String),
       ∀ l ∈ (parse_listings hasPrompt aiCall loads fragments html fetchd kws).1,
         l.name ≠ "" ∧
         (∀ r, l.rating = some r →
            PyF.le (PyF.ofInt 0) r = true ∧ PyF.le r (PyF.ofInt 5) = true) ∧
         (∀ p, l.price_per_night = some p → PyF.le (PyF.ofInt 0) p = true)) ∧
    (∀ c : Listing, is_valid c = true ↔
       (c.name ≠ "" ∧
        (∀ p, effPrice c = some p → PyF.lt (PyF.ofInt 0) p = true) ∧
        (∀ r, c.rating = some r →
           PyF.le (PyF.ofInt 0) r = true ∧ PyF.le r (PyF.ofInt 5) = true))) := by
  refine ⟨?_, is_valid_iff⟩
  intro hasPrompt aiCall loads fragments html fetchd kws l hl
  simp only [parse_listings] at hl
  rcases validateAndDedup_mem fetchd kws _ _ l hl with ⟨c, _, hv, he⟩
  rcases (is_valid_iff c).mp hv with ⟨hn, hpos, hrat⟩
  rcases scoreTag_keeps fetchd kws c with ⟨he1, _, he3, _, he5, _⟩
  subst he
  refine ⟨by rw [he1]; exact hn, ?_, ?_⟩
  · intro r hrr
    rw [he5] at hrr
    exact hrat r hrr
  · intro p hpp
    rw [he3] at hpp
    by_cases hz : p.mant = 0
    · simp only [PyF.le, PyF.ofInt, decide_eq_true_eq, pow_zero, mul_one, zero_mul]
      omega
    · have htr : pyTruthy c.price_per_night = true := by
        rw [hpp]; simp [pyTruthy, hz]
      have hep : effPrice c = some p := by
        unfold effPrice
        rw [htr]
        simpa using hpp
      have hlt := hpos p hep
      simp only [PyF.lt, PyF.le, PyF.ofInt, decide_eq_true_eq, pow_zero, mul_one,
                 zero_mul] at hlt ⊢
      omega

theorem C2_output_validity_witness :
    ({ name := "Lake Cabin", location := "Shreveport, LA",
       price_per_night := some ⟨89, 0⟩, rating := some ⟨48, 1⟩,
       match_score := some ⟨70, 1⟩ } : Listing).name ≠ "" :=
  (C2_output_validity.1 false (.error ()) (fun _ => none)
      [some (.obj [("name", .str "Lake Cabin"), ("price", .str "$89"),
                   ("rating", .num 4 "8"), ("city", .str "Shreveport, LA")])]
      "" (fun _ => "") []
      { name := "Lake Cabin", location := "Shreveport, LA",
        price_per_night := some ⟨89, 0⟩, rating := some ⟨48, 1⟩,
        match_score := some ⟨70, 1⟩ }
      (by decide)).1

/-- C2 counterexample: a structured-data candidate with price string `"$0"`
is admitted — `price_per_night = 0` is falsy, so `_is_valid` never checks
it — and the output then carries a present, non-positive price, refuting
"the price, when present, is strictly positive". -/
theorem C2_counterexample :
    ¬ (∀ l ∈ (parse_listings false (.error ()) (fun _ => none)
          [some (.obj [("name", .str "Zero Lodge"), ("price", .str "$0")])]
          "" (fun _ => "") []).1,
        (match l.price_per_night with
         | some p => PyF.lt (PyF.ofInt 0) p
         | none => true) = true) := by
  decide

/-! ## The regex fallback extractor (claims C8, C9, C10) -/

/-- C8: the regex fallback produces exactly
`min(len(prices), len(ratings), 10)` candidates — capped at ten and bounded
by the sparser of the price/rating streams — and candidate `i` is the
positional zip of `price[i]`, `rating[i]`, `url[i]` (when present, stored as
the name) and `location[i]` (when present, else `"Unknown"`). -/
theorem regex_parse_get (html : String) (i : Nat) (h : i < (regex_parse html).length) :
    (regex_parse html).get ⟨i, h⟩ =
      { name := match (regexUrls html)[i]? with
                | some u => u
                | none => "Property " ++ toString (i + 1),
        location := match (findLocs (plainText html))[i]? with
                    | some m => pyStrip (String.mk m)
                    | none => "Unknown",
        price_per_night :=
          some (PyF.ofInt (natOfDigits ((findPrices (plainText html)).getD i []))),
        rating := some (ratingVal ((findRatings (plainText html)).getD i [])) } := by
  simp only [regex_parse] at h ⊢
  rw [List.get_eq_getElem, List.getElem_map, List.getElem_range]

theorem C8_regex_count_and_zip (html : String) :
    (regex_parse html).length =
      min (min (findPrices (plainText html)).length
               (findRatings (plainText html)).length) 10 ∧
    ∀ (i : Nat) (h : i < (regex_parse html).length),
      (regex_parse html).get ⟨i, h⟩ =
        { name := match (regexUrls html)[i]? with
                  | some u => u
                  | none => "Property " ++ toString (i + 1),
          location := match (findLocs (plainText html))[i]? with
                      | some m => pyStrip (String.mk m)
                      | none => "Unknown",
          price_per_night :=
            some (PyF.ofInt (natOfDigits ((findPrices (plainText html)).getD i []))),
          rating := some (ratingVal ((findRatings (plainText html)).getD i [])) } := by
  constructor
  · simp [regex_parse]
  · exact regex_parse_get html

theorem C8_regex_count_and_zip_witness :
    (regex_parse "$75 4.6").get ⟨0, by decide⟩ =
      { name := "Property 1", location := "Unknown",
        price_per_night := some ⟨75, 0⟩, rating := some ⟨46, 1⟩ } :=
  (C8_regex_count_and_zip "$75 4.6").2 0 (by decide)

theorem digitVal_le_nine {c : Char} (h : c.isDigit = true) : digitVal c ≤ 9 := by
  simp only [Char.isDigit, Bool.and_eq_true, decide_eq_true_eq] at h
  obtain ⟨h1, h2⟩ := h
  have g2 : c.val.toNat ≤ (57 : UInt32).toNat := h2
  have g2e : (57 : UInt32).toNat = 57 := rfl
  unfold digitVal Char.toNat
  omega

theorem matchRatingAt_shape {prev : Option Char} {s m : List Char}
    (h : matchRatingAt prev s = some m) :
    (∃ c d1, (c = '4' ∨ c = '5') ∧ d1.isDigit = true ∧ m = [c, '.', d1]) ∨
    (∃ c d1 d2, (c = '4' ∨ c = '5') ∧ d1.isDigit = true ∧ d2.isDigit = true ∧
       m = [c, '.', d1, d2]) := by
  unfold matchRatingAt at h
  split at h
  · rename_i c d1 tail
    split at h
    · rename_i hcond
      simp only [Bool.and_eq_true, Bool.or_eq_true, decide_eq_true_eq] at hcond
      split at h
      · rename_i d2 rest2
        split at h
        · split at h
          · injection h with h
            exact Or.inr ⟨c, d1, d2, hcond.1.1, hcond.2, by assumption, h.symm⟩
          · exact absurd h (by simp)
        · split at h
          · injection h with h
            exact Or.inl ⟨c, d1, hcond.1.1, hcond.2, h.symm⟩
          · exact absurd h (by simp)
      · injection h with h
        exact Or.inl ⟨c, d1, hcond.1.1, hcond.2, h.symm⟩
    · exact absurd h (by simp)
  · exact absurd h (by simp)

theorem findRatingsGo_shape :
    ∀ (s : List Char) (prev : Option Char) (k : Nat) (m : List Char),
      m ∈ findRatingsGo prev k s →
      ∃ prev' s', matchRatingAt prev' s' = some m := by
  intro s
  induction s with
  | nil => intro prev k m h; simp [findRatingsGo] at h
  | cons c rest ih =>
    intro prev k m h
    cases k with
    | succ k' =>
      simp only [findRatingsGo] at h
      exact ih _ _ m h
    | zero =>
      simp only [findRatingsGo] at h
      cases hm : matchRatingAt prev (c :: rest) with
      | some m0 =>
        rw [hm] at h
        rcases List.mem_cons.mp h with rfl | h'
        · exact ⟨prev, c :: rest, hm⟩
        · exact ih _ _ m h'
      | none =>
        rw [hm] at h
        exact ih _ _ m h

theorem ratingVal_range {m : List Char}
    (h : (∃ c d1, (c = '4' ∨ c = '5') ∧ d1.isDigit = true ∧ m = [c, '.', d1]) ∨
         (∃ c d1 d2, (c = '4' ∨ c = '5') ∧ d1.isDigit = true ∧ d2.isDigit = true ∧
            m = [c, '.', d1, d2])) :
    PyF.le (PyF.ofInt 4) (ratingVal m) = true ∧
    PyF.lt (ratingVal m) (PyF.ofInt 6) = true := by
  rcases h with ⟨c, d1, hc, hd1, rfl⟩ | ⟨c, d1, d2, hc, hd1, hd2, rfl⟩
  · have h1 := digitVal_le_nine hd1
    have hcv : digitVal c = 4 ∨ digitVal c = 5 := by
      rcases hc with rfl | rfl
      · exact Or.inl rfl
      · exact Or.inr rfl
    simp only [ratingVal, PyF.le, PyF.lt, PyF.ofInt, decide_eq_true_eq]
    simp only [pow_zero, pow_one, mul_one]
    constructor <;> [skip; skip] <;> push_cast <;> omega
  · have h1 := digitVal_le_nine hd1
    have h2 := digitVal_le_nine hd2
    have hcv : digitVal c = 4 ∨ digitVal c = 5 := by
      rcases hc with rfl | rfl
      · exact Or.inl rfl
      · exact Or.inr rfl
    simp only [ratingVal, PyF.le, PyF.lt, PyF.ofInt, decide_eq_true_eq]
    simp only [pow_zero, pow_one, mul_one]
    constructor <;> push_cast <;> omega

/-- C9 (amended): every rating the regex-heuristic extractor attaches to a
candidate lies in the interval [4.0, 6.0): the scan only trusts matches of
`[4-5]\.\d{1,2}`, whose values range over 4.0–5.99.  (The unamended
4.0–5.0 range fails: `"5.99"` is matched and attached as a rating above
5.0 — see the counterexample.) -/
theorem C9_regex_rating_bounds (html : String) :
    ∀ l ∈ regex_parse html, ∀ r, l.rating = some r →
      PyF.le (PyF.ofInt 4) r = true ∧ PyF.lt r (PyF.ofInt 6) = true := by
  intro l hl r hr
  simp only [regex_parse, List.mem_map, List.mem_range] at hl
  rcases hl with ⟨i, hi, rfl⟩
  simp only at hr
  injection hr with hr
  subst hr
  have hlen : i < (findRatings (plainText html)).length := by omega
  rw [List.getD_eq_getElem _ _ hlen]
  have hmem := List.getElem_mem (l := findRatings (plainText html)) (n := i) hlen
  rcases findRatingsGo_shape _ _ _ _ hmem with ⟨prev', s', hmr⟩
  exact ratingVal_range (matchRatingAt_shape hmr)

theorem C9_regex_rating_bounds_witness :
    PyF.le (PyF.ofInt 4) ⟨46, 1⟩ = true ∧ PyF.lt ⟨46, 1⟩ (PyF.ofInt 6) = true :=
  C9_regex_rating_bounds "$75 4.6"
    { name := "Property 1", location := "Unknown",
      price_per_night := some ⟨75, 0⟩, rating := some ⟨46, 1⟩ }
    (by decide) ⟨46, 1⟩ rfl

/-- C9 counterexample: on text containing `"$75 5.99"`, the rating scan
matches `"5.99"` and the emitted candidate carries rating `5.99 > 5.0`,
outside the claimed 4.0–5.0 range. -/
theorem C9_counterexample :
    ¬ (∀ l ∈ regex_parse "$75 5.99",
        (match l.rating with
         | some r => PyF.le r (PyF.ofInt 5)
         | none => true) = true) := by
  decide

theorem dedupStr_subset :
    ∀ (xs seen : List String) (x : String), x ∈ dedupStr xs seen → x ∈ xs := by
  intro xs
  induction xs with
  | nil => intro seen x h; simp [dedupStr] at h
  | cons y ys ih =>
    intro seen x h
    simp only [dedupStr] at h
    split at h
    · exact List.mem_cons_of_mem _ (ih _ x h)
    · rcases List.mem_cons.mp h with rfl | h'
      · exact List.mem_cons_self _ _
      · exact List.mem_cons_of_mem _ (ih _ x h')

theorem pyStartsWith_rooms (s : String) :
    pyStartsWith ("airbnb.com/rooms/" ++ s) "airbnb.com" = true := rfl

theorem pyStartsWith_property_not_airbnb (s : String) :
    pyStartsWith ("Property " ++ s) "airbnb.com" = false := rfl

theorem pyStartsWith_property_not_www (s : String) :
    pyStartsWith ("Property " ++ s) "www.airbnb.com" = false := rfl

theorem regexUrls_startsWith (html : String) :
    ∀ u ∈ regexUrls html, pyStartsWith u "airbnb.com" = true := by
  intro u hu
  have hu2 := dedupStr_subset _ _ _ hu
  rcases List.mem_map.mp hu2 with ⟨ds, _, rfl⟩
  exact pyStartsWith_rooms _

/-- C10: candidates from the regex fallback carry no separate `url` key;
a found listing-URL fragment is stored as the candidate's *name*
(`airbnb.com/rooms/<id>`), otherwise the synthetic `Property {i+1}` is the
name; and it is precisely the URL-valued name (prefix `airbnb.com`) that
makes `_calculate_score` treat the listing as enrichable: with a URL name
the scorer performs exactly one description fetch, with a synthetic name it
performs none. -/
theorem C10_regex_url_stored_in_name (html : String) (i : Nat)
    (h : i < (regex_parse html).length) (fetchd : String → String)
    (kws : List String) :
    ((regex_parse html).get ⟨i, h⟩).url = none ∧
    ((regex_parse html).get ⟨i, h⟩).description = none ∧
    (∀ u, (regexUrls html)[i]? = some u →
       ((regex_parse html).get ⟨i, h⟩).name = u ∧
       pyStartsWith ((regex_parse html).get ⟨i, h⟩).name "airbnb.com" = true ∧
       (calculate_score fetchd kws ((regex_parse html).get ⟨i, h⟩)).2.2 = 1) ∧
    ((regexUrls html)[i]? = none →
       ((regex_parse html).get ⟨i, h⟩).name = "Property " ++ toString (i + 1) ∧
       (calculate_score fetchd kws ((regex_parse html).get ⟨i, h⟩)).2.2 = 0) := by
  have hg := regex_parse_get html i h
  refine ⟨by rw [hg], by rw [hg], ?_, ?_⟩
  · intro u hu
    have hname : ((regex_parse html).get ⟨i, h⟩).name = u := by
      rw [hg]
      simp [hu]
    have hstart : pyStartsWith ((regex_parse html).get ⟨i, h⟩).name "airbnb.com" = true := by
      rw [hname]
      exact regexUrls_startsWith html u (List.getElem?_mem hu)
    refine ⟨hname, hstart, ?_⟩
    have hs := calculate_score_snd fetchd kws ((regex_parse html).get ⟨i, h⟩)
    rw [if_pos (by rw [hstart]; rfl)] at hs
    rw [if_pos (by rw [hg]; rfl)] at hs
    exact congrArg Prod.snd hs
  · intro hu
    have hname : ((regex_parse html).get ⟨i, h⟩).name = "Property " ++ toString (i + 1) := by
      rw [hg]
      simp [hu]
    refine ⟨hname, ?_⟩
    have hs := calculate_score_snd fetchd kws ((regex_parse html).get ⟨i, h⟩)
    rw [if_neg (by rw [hname, pyStartsWith_property_not_airbnb,
                       pyStartsWith_property_not_www]; simp)] at hs
    exact congrArg Prod.snd hs

theorem C10_regex_url_stored_in_name_witness :
    ((regex_parse "/rooms/9 $75 4.6").get ⟨0, by decide⟩).name = "airbnb.com/rooms/9" :=
  ((C10_regex_url_stored_in_name "/rooms/9 $75 4.6" 0 (by decide)
      (fun _ => "") []).2.2.1 "airbnb.com/rooms/9" (by decide)).1
